import Mathlib

/-!
Verification of the notify-cpp core against its specification.

The available sources of the repository are the `Inotify` class header
(`src/include/notify-cpp/inotify.h`) and the unit tests
(`src/test/unit/NotifierBuilderTests.cpp`).  The bodies of the event-mask
operators, the controller, the translator and the watch-tree bookkeeping are
not among the sources, so those parts are modelled from the specification;
each such definition says so in its doc comment.  The buffer-size constants
(`MAX_EVENTS`, `EVENT_SIZE`, `EVENT_BUF_LEN`) are taken directly from
`inotify.h`.
-/

namespace NotifyCpp

/-- Modelled from the spec: the `Event` enumeration of `event.h` is not among
the provided sources.  §3 fixes the vocabulary of change-kind flags; the bit
values follow the Linux inotify flags that the header's documentation block
lists (`IN_ACCESS`, `IN_MODIFY`, ...). -/
inductive Event where
  | access
  | attrib
  | close_write
  | close_nowrite
  | create
  | «delete»
  | delete_self
  | modify
  | move_self
  | moved_from
  | moved_to
  | «open»
  deriving DecidableEq

/-- Modelled from the spec: the numeric value of each defined event bit,
one distinct bit per enumeration member (the Linux inotify flag values). -/
def Event.toMask : Event → Nat
  | .access => 0x1
  | .modify => 0x2
  | .attrib => 0x4
  | .close_write => 0x8
  | .close_nowrite => 0x10
  | .«open» => 0x20
  | .moved_from => 0x40
  | .moved_to => 0x80
  | .create => 0x100
  | .«delete» => 0x200
  | .delete_self => 0x400
  | .move_self => 0x800

/-- The list of every defined event bit of the enumeration. -/
def Event.allList : List Event :=
  [.access, .attrib, .close_write, .close_nowrite, .create, .«delete»,
   .delete_self, .modify, .move_self, .moved_from, .moved_to, .«open»]

/-- Modelled from the spec: `union(a,b)` on event masks (§4.1), the bitwise
or of the C++ `operator|`. -/
def maskUnion (a b : Nat) : Nat := a ||| b

/-- Modelled from the spec: `intersect(a,b)` on event masks (§4.1), the
bitwise and of the C++ `operator&`. -/
def maskIntersect (a b : Nat) : Nat := a &&& b

/-- Modelled from the spec: `contains(mask, bit)` (§4.1); the tests phrase
it as `(mask & bit) == bit`. -/
def maskContains (mask bit : Nat) : Bool := maskIntersect mask bit == bit

/-- Modelled from the spec: `all` is the union of every defined bit,
computed from the enumeration rather than hand-enumerated (§4.1). -/
def Event.all : Nat := Event.allList.foldr (fun e m => maskUnion e.toMask m) 0

/-- The union of the event bits of a list of events, as built by repeated
`maskUnion`; a composite mask whose set bits are exactly the listed events. -/
def maskOfList (es : List Event) : Nat :=
  es.foldr (fun x m => maskUnion x.toMask m) 0

/-- Modelled from the spec: the stable string name of each event bit
(`toString` of `event.cpp` is not among the sources; the test checks
`toString(Event::access) == "access"`). -/
def Event.toString : Event → String
  | .access => "access"
  | .attrib => "attrib"
  | .close_write => "close_write"
  | .close_nowrite => "close_nowrite"
  | .create => "create"
  | .«delete» => "delete"
  | .delete_self => "delete_self"
  | .modify => "modify"
  | .move_self => "move_self"
  | .moved_from => "moved_from"
  | .moved_to => "moved_to"
  | .«open» => "open"

/-- Modelled from the spec: re-encoding an event name, the inverse lookup of
`Event.toString` over the enumeration (§6 requires the names to round-trip). -/
def parseEvent (s : String) : Option Event :=
  Event.allList.find? (fun e => e.toString == s)

/-- A filesystem path, as its list of name components. -/
abbrev Path := List String

/-- Modelled from the spec: the filesystem contents visible to the controller
at call time, as the lists of currently existing directory and file paths. -/
structure FileSystem where
  dirs : List Path
  files : List Path
  deriving DecidableEq

/-- Modelled from the spec: a path exists when it is a current directory or a
current file. -/
def FileSystem.existsPath (fs : FileSystem) (p : Path) : Prop :=
  p ∈ fs.dirs ∨ p ∈ fs.files

instance (fs : FileSystem) (p : Path) : Decidable (fs.existsPath p) :=
  inferInstanceAs (Decidable (p ∈ fs.dirs ∨ p ∈ fs.files))

/-- Modelled from the spec: the controller state the configuration calls act
on - the watch-descriptor-to-path table (`mDirectorieMap` of `inotify.h`),
the next descriptor the Watch Source will hand out, and the ignore lists
(`mIgnoredDirectories`, `mOnceIgnoredDirectories`). -/
structure ControllerState where
  watchTable : List (Nat × Path)
  nextWd : Nat
  ignored : List Path
  onceIgnored : List Path
  deriving DecidableEq

/-- Modelled from the spec: the error taxonomy surfaced to callers (§7);
`invalidArgument` is the invalid-path condition, which the tests observe as
`std::invalid_argument`. -/
inductive NotifyError where
  | invalidArgument
  deriving DecidableEq

/-- Registering one watch: record the path under a fresh descriptor. -/
def addWatchEntry (st : ControllerState) (p : Path) : ControllerState :=
  { st with
    watchTable := st.watchTable ++ [(st.nextWd, p)]
    nextWd := st.nextWd + 1 }

/-- The directories of the filesystem inside the subtree rooted at `p`,
including `p` itself when it is a directory. -/
def subtreeDirs (fs : FileSystem) (p : Path) : List Path :=
  fs.dirs.filter (fun d => p.isPrefixOf d)

/-- Modelled from the spec: the body of `Inotify::watchFile` is not among the
sources (only its declaration, `inotify.h` line 73).  §4.4 and §6: watching a
path that does not exist raises the invalid-argument condition synchronously;
otherwise the path is registered in the watch table under a fresh
descriptor. -/
def watchFile (fs : FileSystem) (p : Path) (st : ControllerState) :
    ControllerState × Option NotifyError :=
  if fs.existsPath p then (addWatchEntry st p, none)
  else (st, some NotifyError.invalidArgument)

/-- Modelled from the spec: the body of `watchPathRecursively` is not among
the sources.  §4.4: watching a non-existent path raises the invalid-argument
condition synchronously; an existing directory is walked and every directory
of its subtree receives a watch; an existing plain file receives a single
watch. -/
def watchPathRecursively (fs : FileSystem) (p : Path) (st : ControllerState) :
    ControllerState × Option NotifyError :=
  if fs.existsPath p then
    (if p ∈ fs.dirs then (subtreeDirs fs p).foldl addWatchEntry st
     else addWatchEntry st p, none)
  else (st, some NotifyError.invalidArgument)

/-- `MAX_EVENTS` from `inotify.h` line 26. -/
def MAX_EVENTS : Nat := 4096

/-- `EVENT_SIZE` from `inotify.h` line 27: `sizeof(inotify_event)`.  The
Linux `inotify_event` struct is four 32-bit fields (wd, mask, cookie, len)
followed by the name bytes, so its own size is 16 bytes. -/
def EVENT_SIZE : Nat := 16

/-- `EVENT_BUF_LEN` from `inotify.h` line 28. -/
def EVENT_BUF_LEN : Nat := MAX_EVENTS * (EVENT_SIZE + 16)

/-- One read's worth of raw records, abstracted to the byte size of each
record: a record occupies `sizeof(inotify_event) + len` bytes with `len ≥ 0`,
and one blocking read fills at most the fixed `EVENT_BUF_LEN`-byte buffer. -/
def validReadBatch (sizes : List Nat) : Prop :=
  (∀ s ∈ sizes, EVENT_SIZE ≤ s) ∧ sizes.sum ≤ EVENT_BUF_LEN

/-- Modelled from the spec: a translated Notification (§3) - the resolved
path, the event mask bits, and for a reassembled rename pair the moved-to
companion path. -/
structure Notification where
  path : Path
  event : Nat
  movedTo : Option Path
  deriving DecidableEq

/-- Modelled from the spec: one entry of the CallbackRegistry (§3) - an
event mask plus the identity of the user callback registered for it. -/
structure Registration where
  mask : Nat
  id : Nat
  deriving DecidableEq

/-- Modelled from the spec: the IgnoreSet (§3) - persistent entries
(`mIgnoredDirectories`) and one-shot entries (`mOnceIgnoredDirectories`). -/
structure IgnoreState where
  ignored : List Path
  onceIgnored : List Path
  deriving DecidableEq

/-- Modelled from the spec: a registration matches a notification when its
mask intersects the notification's bits (§9, dispatch keyed by event mask). -/
def matchesReg (r : Registration) (n : Notification) : Bool :=
  maskIntersect r.mask n.event != 0

/-- Modelled from the spec: the callback invocations one unsuppressed
notification produces (§4.5) - every registration whose mask matches is
invoked, independently; a notification matching no registered mask goes to
the optional unexpected-event observer. -/
def deliveries (regs : List Registration) (unexpected : Option Nat)
    (n : Notification) : List (Nat × Notification) :=
  if (regs.filter (fun r => matchesReg r n)).isEmpty then
    (match unexpected with
     | some u => [(u, n)]
     | none => [])
  else (regs.filter (fun r => matchesReg r n)).map (fun r => (r.id, n))

/-- Modelled from the spec: dispatch of one translated notification (§4.5,
the run-loop bodies are not among the sources): a path in the persistent
ignore list is suppressed; otherwise a path in the one-shot list is
suppressed and its one-shot entry removes itself; otherwise the notification
is delivered. -/
def dispatchOne (regs : List Registration) (unexpected : Option Nat)
    (st : IgnoreState) (n : Notification) :
    IgnoreState × List (Nat × Notification) :=
  if n.path ∈ st.ignored then (st, [])
  else if n.path ∈ st.onceIgnored then
    ({ st with onceIgnored := st.onceIgnored.erase n.path }, [])
  else (st, deliveries regs unexpected n)

/-- Modelled from the spec: one dispatch cycle over a translated batch, in
batch order, threading the ignore state through the cycle. -/
def dispatchBatch (regs : List Registration) (unexpected : Option Nat) :
    IgnoreState → List Notification → IgnoreState × List (Nat × Notification)
  | st, [] => (st, [])
  | st, n :: ns =>
    ((dispatchBatch regs unexpected (dispatchOne regs unexpected st n).1 ns).1,
     (dispatchOne regs unexpected st n).2 ++
       (dispatchBatch regs unexpected (dispatchOne regs unexpected st n).1 ns).2)

/-- Modelled from the spec: one raw kernel record (§4.3) - the
kernel-assigned watch descriptor, the raw bit flags, the cookie correlating
a rename's two halves, and the optional filename fragment. -/
structure RawRecord where
  wd : Nat
  mask : Nat
  cookie : Nat
  name : Option String
  deriving DecidableEq

/-- A record whose raw flags carry the `moved_from` bit. -/
def RawRecord.hasMovedFrom (r : RawRecord) : Bool :=
  maskIntersect r.mask Event.moved_from.toMask != 0

/-- A record whose raw flags carry the `moved_to` bit. -/
def RawRecord.hasMovedTo (r : RawRecord) : Bool :=
  maskIntersect r.mask Event.moved_to.toMask != 0

/-- Modelled from the spec: path resolution of §4.3 - the record's watch
descriptor is resolved through the watch table; a filename fragment is
appended to the watched path, otherwise the watched path itself is the
resolved path; an unresolvable descriptor makes the record a dropped one. -/
def resolveRecord (table : List (Nat × Path)) (r : RawRecord) : Option Path :=
  match table.lookup r.wd with
  | none => none
  | some base =>
    match r.name with
    | some f => some (base ++ [f])
    | none => some base

/-- The first `moved_to` record in the rest of the batch sharing a cookie. -/
def findMovedTo (c : Nat) (rs : List RawRecord) : Option RawRecord :=
  rs.find? (fun r => r.hasMovedTo && r.cookie == c)

/-- Modelled from the spec: the raw-event translator of §4.3 (the body of
`Inotify::getNextEvent` is not among the sources).  Records are translated
in batch order; a `moved_from` record looks ahead in the same batch for the
first `moved_to` record sharing its cookie and, when one is found, a single
Notification carrying both paths is emitted and the correlated `moved_to`
record is consumed (tracked through its cookie); a `moved_from` with no
matching `moved_to` in the batch is emitted alone. -/
def translateGo (table : List (Nat × Path)) :
    List Nat → List RawRecord → List Notification
  | _, [] => []
  | consumed, r :: rs =>
    if r.hasMovedTo && consumed.contains r.cookie then
      translateGo table (consumed.erase r.cookie) rs
    else
      match resolveRecord table r with
      | none => translateGo table consumed rs
      | some p =>
        if r.hasMovedFrom then
          match findMovedTo r.cookie rs with
          | some r2 =>
            match resolveRecord table r2 with
            | some q =>
              ⟨p, maskUnion Event.moved_from.toMask Event.moved_to.toMask, some q⟩ ::
                translateGo table (r.cookie :: consumed) rs
            | none =>
              ⟨p, Event.moved_from.toMask, none⟩ ::
                translateGo table (r.cookie :: consumed) rs
          | none =>
            ⟨p, Event.moved_from.toMask, none⟩ :: translateGo table consumed rs
        else ⟨p, r.mask, none⟩ :: translateGo table consumed rs

/-- Modelled from the spec: translation of one whole read batch (§4.3). -/
def translateBatch (table : List (Nat × Path)) (batch : List RawRecord) :
    List Notification :=
  translateGo table [] batch

/-- A directory `d` lies under one of the recursive roots. -/
def underRoots (roots : List Path) (d : Path) : Bool :=
  roots.any (fun r => r.isPrefixOf d)

/-- Modelled from the spec: the watch-tree invariant of §4.4 - between
processed notifications, the set of watched directories is exactly the set
of directories existing on the filesystem that lie under a recursive
root. -/
def watchInvariant (roots fs table : List Path) : Prop :=
  ∀ p : Path, p ∈ table ↔ (p ∈ fs ∧ underRoots roots p = true)

/-- Modelled from the spec: processing a translated `create` Notification
for a new directory `d` (§4.4, the bodies are not among the sources) - when
`d` lies inside a recursively registered subtree, `addWatch` is issued for
it synchronously and it is re-walked for children that already exist at the
moment of discovery (closing the create/watch race window); outside every
recursive root nothing is added. -/
def applyCreate (roots fs table : List Path) (d : Path) : List Path :=
  if underRoots roots d then table ++ fs.filter (fun x => d.isPrefixOf x)
  else table

/-- Modelled from the spec: processing `delete`/`delete_self`/`moved_from`
for a removed directory `d` (§4.4) - one dispatch cycle carries the
kernel's records for every watched directory of the removed subtree and
each removes its own entry, so the cycle's aggregate effect on the table is
dropping `d` and its descendants. -/
def applyRemove (table : List Path) (d : Path) : List Path :=
  table.filter (fun x => ! d.isPrefixOf x)

theorem lor_land_self_left (a b : Nat) : (a ||| b) &&& a = a := by
  apply Nat.eq_of_testBit_eq
  intro i
  rw [Nat.testBit_and, Nat.testBit_or]
  cases ha : a.testBit i <;> cases hb : b.testBit i <;> rfl

theorem lor_land_self_right (a b : Nat) : (a ||| b) &&& b = b := by
  apply Nat.eq_of_testBit_eq
  intro i
  rw [Nat.testBit_and, Nat.testBit_or]
  cases ha : a.testBit i <;> cases hb : b.testBit i <;> rfl

theorem land_lor_mono (a m c : Nat) (h : m &&& c = c) : (a ||| m) &&& c = c := by
  apply Nat.eq_of_testBit_eq
  intro i
  have hi : (m.testBit i && c.testBit i) = c.testBit i := by
    rw [← Nat.testBit_and, h]
  rw [Nat.testBit_and, Nat.testBit_or]
  cases hc : c.testBit i
  · simp
  · rw [hc] at hi
    cases hm : m.testBit i
    · rw [hm] at hi
      simp at hi
    · simp

theorem maskContains_of_mem (es : List Event) (e : Event) (h : e ∈ es) :
    maskContains (maskOfList es) e.toMask = true := by
  induction es with
  | nil => cases h
  | cons x xs ih =>
    simp only [maskOfList, List.foldr_cons] at *
    rcases List.mem_cons.mp h with rfl | hx
    · simp only [maskContains, maskIntersect, maskUnion, beq_iff_eq]
      exact lor_land_self_left _ _
    · have := ih hx
      simp only [maskContains, maskIntersect, maskUnion, beq_iff_eq] at this ⊢
      exact land_lor_mono _ _ _ this

/-- C2: for all event masks `a` and `b`, `contains(union(a,b), a)` and
`contains(union(a,b), b)` hold, and `contains(all, x)` holds for every
defined event bit `x`; containment treats a composite mask as matching when
the queried bit is any one of the mask's set bits. -/
theorem c2_event_mask_algebra :
    (∀ a b : Nat, maskContains (maskUnion a b) a = true ∧
      maskContains (maskUnion a b) b = true) ∧
    (∀ e : Event, maskContains Event.all e.toMask = true) ∧
    (∀ (es : List Event) (e : Event), e ∈ es →
      maskContains (maskOfList es) e.toMask = true) := by
  refine ⟨fun a b => ⟨?_, ?_⟩, fun e => ?_, maskContains_of_mem⟩
  · simp only [maskContains, maskIntersect, maskUnion, beq_iff_eq]
    exact lor_land_self_left a b
  · simp only [maskContains, maskIntersect, maskUnion, beq_iff_eq]
    exact lor_land_self_right a b
  · cases e <;> decide

/-- Witness for C2 at a concrete input: the composite mask
`close_write | open` contains the single bit `open`. -/
theorem c2_event_mask_algebra_witness :
    maskContains (maskOfList [Event.close_write, Event.«open»])
      Event.«open».toMask = true :=
  c2_event_mask_algebra.2.2 [Event.close_write, Event.«open»] Event.«open»
    (by decide)

/-- C9: for every defined event bit `b`, parsing the string name of `b`
yields `b` back: `parse(name(b)) = b` for the whole enumeration. -/
theorem c9_event_name_round_trip :
    ∀ e : Event, parseEvent (Event.toString e) = some e := by
  intro e
  cases e <;> rfl

/-- C1: calling `watchFile` or `watchPathRecursively` on a path that does
not exist raises the invalid-argument condition synchronously (the call
itself returns the error, before any run loop is involved) and leaves the
controller state unchanged. -/
theorem c1_invalid_path_synchronous (fs : FileSystem) (p : Path)
    (st : ControllerState) (h : ¬ fs.existsPath p) :
    watchFile fs p st = (st, some NotifyError.invalidArgument) ∧
    watchPathRecursively fs p st = (st, some NotifyError.invalidArgument) := by
  constructor
  · simp [watchFile, h]
  · simp [watchPathRecursively, h]

/-- Witness for C1 at a concrete input: an empty filesystem and the path
`/nope`. -/
theorem c1_invalid_path_synchronous_witness :
    watchFile ⟨[], []⟩ ["nope"] ⟨[], 0, [], []⟩ =
      (⟨[], 0, [], []⟩, some NotifyError.invalidArgument) ∧
    watchPathRecursively ⟨[], []⟩ ["nope"] ⟨[], 0, [], []⟩ =
      (⟨[], 0, [], []⟩, some NotifyError.invalidArgument) :=
  c1_invalid_path_synchronous ⟨[], []⟩ ["nope"] ⟨[], 0, [], []⟩ (by decide)

theorem mul_length_le_sum (c : Nat) (l : List Nat) (h : ∀ x ∈ l, c ≤ x) :
    c * l.length ≤ l.sum := by
  induction l with
  | nil => simp
  | cons x xs ih =>
    have hx := h x (List.mem_cons_self x xs)
    have hxs := ih (fun y hy => h y (List.mem_cons_of_mem x hy))
    simp only [List.length_cons, List.sum_cons, Nat.mul_succ]
    omega

/-- C10 counterexample: a batch of 4097 minimal records (16 bytes each, the
empty-name case) fits in the `EVENT_BUF_LEN`-byte buffer, so one read can
return more than `MAX_EVENTS = 4096` raw records; the claimed 4096 bound is
not forced by the buffer size. -/
theorem c10_counterexample :
    validReadBatch (List.replicate 4097 EVENT_SIZE) ∧
      ¬ (List.replicate 4097 EVENT_SIZE).length ≤ MAX_EVENTS := by
  refine ⟨⟨?_, ?_⟩, ?_⟩
  · intro s hs
    exact le_of_eq (List.eq_of_mem_replicate hs).symm
  · rw [List.sum_replicate, smul_eq_mul]
    norm_num [EVENT_SIZE, EVENT_BUF_LEN, MAX_EVENTS]
  · simp only [List.length_replicate, MAX_EVENTS]
    omega

/-- C10 (amended): the read buffer is exactly `EVENT_BUF_LEN =
4096 * (sizeof(inotify_event) + 16)` bytes; since every raw record occupies
at least `sizeof(inotify_event) = 16` bytes, one batch holds at most
`EVENT_BUF_LEN / EVENT_SIZE = 8192` raw records. -/
theorem c10_batch_bound (sizes : List Nat) (h : validReadBatch sizes) :
    EVENT_BUF_LEN = 4096 * (EVENT_SIZE + 16) ∧ sizes.length ≤ 8192 := by
  refine ⟨rfl, ?_⟩
  obtain ⟨hmin, hsum⟩ := h
  have h1 : EVENT_SIZE * sizes.length ≤ sizes.sum := mul_length_le_sum _ _ hmin
  have h2 : EVENT_SIZE * sizes.length ≤ EVENT_BUF_LEN := le_trans h1 hsum
  simp only [EVENT_SIZE, EVENT_BUF_LEN, MAX_EVENTS] at h2
  omega

/-- Witness for C10 at a concrete input: a batch of one minimal record. -/
theorem c10_batch_bound_witness :
    EVENT_BUF_LEN = 4096 * (EVENT_SIZE + 16) ∧
      (List.replicate 1 EVENT_SIZE).length ≤ 8192 :=
  c10_batch_bound (List.replicate 1 EVENT_SIZE)
    ⟨fun s hs => le_of_eq (List.eq_of_mem_replicate hs).symm, by decide⟩

theorem dispatchOne_fst_ignored (regs : List Registration)
    (unexpected : Option Nat) (st : IgnoreState) (n : Notification) :
    (dispatchOne regs unexpected st n).1.ignored = st.ignored := by
  by_cases h1 : n.path ∈ st.ignored
  · simp [dispatchOne, h1]
  · by_cases h2 : n.path ∈ st.onceIgnored
    · simp [dispatchOne, h1, h2]
    · simp [dispatchOne, h1, h2]

theorem dispatchOne_snd_nil_of_ignored (regs : List Registration)
    (unexpected : Option Nat) (st : IgnoreState) (n : Notification)
    (h : n.path ∈ st.ignored) : (dispatchOne regs unexpected st n).2 = [] := by
  simp [dispatchOne, h]

theorem mem_deliveries_snd (regs : List Registration) (unexpected : Option Nat)
    (n : Notification) (cn : Nat × Notification)
    (h : cn ∈ deliveries regs unexpected n) : cn.2 = n := by
  unfold deliveries at h
  split at h
  · cases unexpected with
    | none => cases h
    | some u =>
      have := List.mem_singleton.mp h
      subst this
      rfl
  · rcases List.mem_map.mp h with ⟨r, _, rfl⟩
    rfl

theorem dispatchOne_snd_mem (regs : List Registration) (unexpected : Option Nat)
    (st : IgnoreState) (n : Notification) (cn : Nat × Notification)
    (h : cn ∈ (dispatchOne regs unexpected st n).2) : cn.2 = n := by
  unfold dispatchOne at h
  split at h
  · cases h
  · split at h
    · cases h
    · exact mem_deliveries_snd regs unexpected n cn h

/-- C4: after `ignore(path)` is registered, no notification whose resolved
path equals `path` is dispatched to any registered callback in any
subsequent dispatch cycle, and the persistent rule survives every cycle (it
is only removed explicitly). -/
theorem c4_ignore_persistent (regs : List Registration) (unexpected : Option Nat)
    (st : IgnoreState) (ns : List Notification) (p : Path)
    (h : p ∈ st.ignored) :
    p ∈ (dispatchBatch regs unexpected st ns).1.ignored ∧
    ∀ cn ∈ (dispatchBatch regs unexpected st ns).2, cn.2.path ≠ p := by
  induction ns generalizing st with
  | nil =>
    refine ⟨h, ?_⟩
    intro cn hcn
    cases hcn
  | cons n ns ih =>
    have hig : (dispatchOne regs unexpected st n).1.ignored = st.ignored :=
      dispatchOne_fst_ignored regs unexpected st n
    have hmem : p ∈ (dispatchOne regs unexpected st n).1.ignored := by
      rw [hig]; exact h
    obtain ⟨ih1, ih2⟩ := ih _ hmem
    refine ⟨ih1, ?_⟩
    intro cn hcn
    have hcn' : cn ∈ (dispatchOne regs unexpected st n).2 ++
        (dispatchBatch regs unexpected (dispatchOne regs unexpected st n).1 ns).2 :=
      hcn
    rcases List.mem_append.mp hcn' with h1 | h1
    · by_cases hp : n.path = p
      · rw [dispatchOne_snd_nil_of_ignored regs unexpected st n (hp ▸ h)] at h1
        cases h1
      · rw [dispatchOne_snd_mem regs unexpected st n cn h1]
        exact hp
    · exact ih2 cn h1

/-- Witness for C4 at a concrete input: with `["f"]` in the persistent
ignore list, a batch holding one notification for `["f"]` and one for
`["g"]` keeps the rule and delivers nothing whose path is `["f"]`. -/
theorem c4_ignore_persistent_witness :
    ["f"] ∈ (dispatchBatch [⟨0xFFF, 1⟩] none ⟨[["f"]], []⟩
      [⟨["f"], 0x20, none⟩, ⟨["g"], 0x20, none⟩]).1.ignored ∧
    (⟨(1 : Nat), ⟨["g"], 0x20, none⟩⟩ : Nat × Notification).2.path ≠ ["f"] := by
  have h := c4_ignore_persistent [⟨0xFFF, 1⟩] none ⟨[["f"]], []⟩
    [⟨["f"], 0x20, none⟩, ⟨["g"], 0x20, none⟩] ["f"] (by decide)
  exact ⟨h.1, h.2 ⟨1, ⟨["g"], 0x20, none⟩⟩ (by decide)⟩

/-- C5: with `path` present exactly once in the one-shot ignore list and not
persistently ignored, the next notification for `path` is suppressed and the
one-shot entry removes itself; the entry is then gone, and a following
notification for `path` is delivered normally. -/
theorem c5_ignore_once (regs : List Registration) (unexpected : Option Nat)
    (st : IgnoreState) (p : Path) (n₁ n₂ : Notification)
    (h1 : n₁.path = p) (h2 : n₂.path = p)
    (hcount : st.onceIgnored.count p = 1) (hni : p ∉ st.ignored) :
    dispatchOne regs unexpected st n₁ =
      ({ st with onceIgnored := st.onceIgnored.erase p }, []) ∧
    p ∉ st.onceIgnored.erase p ∧
    dispatchOne regs unexpected { st with onceIgnored := st.onceIgnored.erase p } n₂ =
      ({ st with onceIgnored := st.onceIgnored.erase p },
        deliveries regs unexpected n₂) := by
  have hmem : p ∈ st.onceIgnored := List.count_pos_iff.mp (by omega)
  have h0 : (st.onceIgnored.erase p).count p = 0 := by
    rw [List.count_erase_self, hcount]
  have herase : p ∉ st.onceIgnored.erase p := List.count_eq_zero.mp h0
  refine ⟨?_, herase, ?_⟩
  · simp [dispatchOne, h1, hni, hmem]
  · simp [dispatchOne, h2, hni, herase]

/-- Witness for C5 at a concrete input: one one-shot entry for `["f"]`, two
notifications for `["f"]`; the first is suppressed, the second delivered. -/
theorem c5_ignore_once_witness :
    dispatchOne [⟨0x20, 1⟩] none ⟨[], [["f"]]⟩ ⟨["f"], 0x20, none⟩ =
      (⟨[], ([["f"]] : List Path).erase ["f"]⟩, []) ∧
    (["f"] : Path) ∉ ([["f"]] : List Path).erase ["f"] ∧
    dispatchOne [⟨0x20, 1⟩] none ⟨[], ([["f"]] : List Path).erase ["f"]⟩
        ⟨["f"], 0x20, none⟩ =
      (⟨[], ([["f"]] : List Path).erase ["f"]⟩,
        deliveries [⟨0x20, 1⟩] none ⟨["f"], 0x20, none⟩) :=
  c5_ignore_once [⟨0x20, 1⟩] none ⟨[], [["f"]]⟩ ["f"]
    ⟨["f"], 0x20, none⟩ ⟨["f"], 0x20, none⟩ rfl rfl (by decide) (by decide)

theorem dispatchBatch_unsuppressed (regs : List Registration)
    (unexpected : Option Nat) (st : IgnoreState) (ns : List Notification)
    (hun : ∀ n ∈ ns, n.path ∉ st.ignored ∧ n.path ∉ st.onceIgnored) :
    dispatchBatch regs unexpected st ns =
      (st, ns.flatMap (deliveries regs unexpected)) := by
  induction ns with
  | nil => rfl
  | cons n ns ih =>
    obtain ⟨hg, ho⟩ := hun n (List.mem_cons_self n ns)
    have hone : dispatchOne regs unexpected st n =
        (st, deliveries regs unexpected n) := by
      simp [dispatchOne, hg, ho]
    have hfst : (dispatchOne regs unexpected st n).1 = st := by rw [hone]
    have hsnd : (dispatchOne regs unexpected st n).2 =
        deliveries regs unexpected n := by rw [hone]
    have ih' := ih (fun m hm => hun m (List.mem_cons_of_mem n hm))
    show ((dispatchBatch regs unexpected (dispatchOne regs unexpected st n).1 ns).1,
      (dispatchOne regs unexpected st n).2 ++
        (dispatchBatch regs unexpected (dispatchOne regs unexpected st n).1 ns).2) =
      (st, (n :: ns).flatMap (deliveries regs unexpected))
    rw [hfst, hsnd, ih', List.flatMap_cons]

theorem count_deliveries_ne (regs : List Registration) (unexpected : Option Nat)
    (m n : Notification) (i : Nat) (hne : m ≠ n) :
    (deliveries regs unexpected m).count (i, n) = 0 := by
  apply List.count_eq_zero_of_not_mem
  intro hmem
  exact hne (mem_deliveries_snd regs unexpected m (i, n) hmem).symm

theorem count_flatMap_zero (regs : List Registration) (unexpected : Option Nat)
    (ms : List Notification) (n : Notification) (i : Nat) (h : n ∉ ms) :
    (ms.flatMap (deliveries regs unexpected)).count (i, n) = 0 := by
  induction ms with
  | nil => rfl
  | cons m ms ih =>
    rw [List.flatMap_cons, List.count_append]
    have hmn : m ≠ n := fun he => h (he ▸ List.mem_cons_self m ms)
    rw [count_deliveries_ne regs unexpected m n i hmn,
      ih (fun hn => h (List.mem_cons_of_mem m hn))]

theorem count_pair_map_zero (n : Notification) (j : Nat) (l : List Registration)
    (h : j ∉ l.map Registration.id) :
    (l.map (fun x => ((x.id : Nat), n))).count (j, n) = 0 := by
  apply List.count_eq_zero_of_not_mem
  intro hmem
  rcases List.mem_map.mp hmem with ⟨x, hx, he⟩
  have hid : x.id = j := congrArg Prod.fst he
  exact h (hid ▸ List.mem_map_of_mem Registration.id hx)

theorem count_pair_map_one (n : Notification) (j : Nat) :
    ∀ l : List Registration, (l.map Registration.id).Nodup →
      j ∈ l.map Registration.id →
      (l.map (fun x => ((x.id : Nat), n))).count (j, n) = 1 := by
  intro l
  induction l with
  | nil => intro _ hj; cases hj
  | cons x xs ih =>
    intro hnd hj
    have hnd' : (x.id :: xs.map Registration.id).Nodup := by simpa using hnd
    obtain ⟨hx, hxs⟩ := List.nodup_cons.mp hnd'
    rw [List.map_cons, List.count_cons]
    by_cases hid : x.id = j
    · subst hid
      rw [count_pair_map_zero n x.id xs hx]
      simp
    · have hj' : j ∈ x.id :: xs.map Registration.id := by simpa using hj
      rcases List.mem_cons.mp hj' with he | hjt
      · exact absurd he.symm hid
      · rw [ih hxs hjt, if_neg (by simp [hid])]

theorem count_deliveries_self (regs : List Registration) (unexpected : Option Nat)
    (n : Notification) (r : Registration) (hr : r ∈ regs)
    (hm : matchesReg r n = true) (hids : (regs.map Registration.id).Nodup) :
    (deliveries regs unexpected n).count (r.id, n) = 1 := by
  have hrh : r ∈ regs.filter (fun x => matchesReg x n) :=
    List.mem_filter.mpr ⟨hr, hm⟩
  have hne : regs.filter (fun x => matchesReg x n) ≠ [] :=
    List.ne_nil_of_mem hrh
  have hnd : ((regs.filter (fun x => matchesReg x n)).map Registration.id).Nodup :=
    List.Nodup.sublist (List.Sublist.map Registration.id (List.filter_sublist regs)) hids
  unfold deliveries
  rw [if_neg (by simpa [List.isEmpty_iff] using hne)]
  exact count_pair_map_one n r.id _ hnd (List.mem_map_of_mem Registration.id hrh)

theorem count_flatMap_one (regs : List Registration) (unexpected : Option Nat)
    (n : Notification) (r : Registration) (hr : r ∈ regs)
    (hm : matchesReg r n = true) (hids : (regs.map Registration.id).Nodup) :
    ∀ ns : List Notification, n ∈ ns → ns.Nodup →
      (ns.flatMap (deliveries regs unexpected)).count (r.id, n) = 1 := by
  intro ns
  induction ns with
  | nil => intro hn _; cases hn
  | cons m ms ih =>
    intro hn hnd
    obtain ⟨hmm, hms⟩ := List.nodup_cons.mp hnd
    rw [List.flatMap_cons, List.count_append]
    rcases List.mem_cons.mp hn with rfl | hn'
    · rw [count_deliveries_self regs unexpected n r hr hm hids,
        count_flatMap_zero regs unexpected ms n r.id hmm]
    · rw [count_deliveries_ne regs unexpected m n r.id
        (fun he => hmm (by rw [he]; exact hn')), ih hn' hms]

/-- C6: within one read batch whose notifications are not suppressed by any
ignore rule, invocations are produced in the order the raw records were
returned (the concatenation of each notification's deliveries, in batch
order), and every registered callback whose mask matches a notification is
invoked exactly once for it, independently of the other registrations. -/
theorem c6_dispatch_order (regs : List Registration) (unexpected : Option Nat)
    (st : IgnoreState) (ns : List Notification)
    (hun : ∀ n ∈ ns, n.path ∉ st.ignored ∧ n.path ∉ st.onceIgnored)
    (hids : (regs.map Registration.id).Nodup) (hnd : ns.Nodup) :
    (dispatchBatch regs unexpected st ns).2 =
      ns.flatMap (deliveries regs unexpected) ∧
    ∀ n ∈ ns, ∀ r ∈ regs, matchesReg r n = true →
      ((dispatchBatch regs unexpected st ns).2).count (r.id, n) = 1 := by
  have hb := dispatchBatch_unsuppressed regs unexpected st ns hun
  have hb2 : (dispatchBatch regs unexpected st ns).2 =
      ns.flatMap (deliveries regs unexpected) := by rw [hb]
  refine ⟨hb2, ?_⟩
  intro n hn r hr hm
  rw [hb2]
  exact count_flatMap_one regs unexpected n r hr hm hids ns hn hnd

/-- Witness for C6 at a concrete input: callbacks for `open` (id 1) and
`close_write` (id 2) on the same file, a batch holding the `open` record
then the `close_write` record; callback 1 fires exactly once for the `open`
notification. -/
theorem c6_dispatch_order_witness :
    ((dispatchBatch [⟨0x20, 1⟩, ⟨0x8, 2⟩] none ⟨[], []⟩
        [⟨["f"], 0x20, none⟩, ⟨["f"], 0x8, none⟩]).2).count
      ((⟨0x20, 1⟩ : Registration).id, ⟨["f"], 0x20, none⟩) = 1 :=
  (c6_dispatch_order [⟨0x20, 1⟩, ⟨0x8, 2⟩] none ⟨[], []⟩
      [⟨["f"], 0x20, none⟩, ⟨["f"], 0x8, none⟩]
      (by decide) (by decide) (by decide)).2
    ⟨["f"], 0x20, none⟩ (by decide) ⟨0x20, 1⟩ (by decide) (by decide)

theorem find?_skip_middle {α : Type} (p : α → Bool) (a : α) (hpa : p a = false) :
    ∀ l1 l2 : List α, List.find? p (l1 ++ a :: l2) = List.find? p (l1 ++ l2) := by
  intro l1
  induction l1 with
  | nil =>
    intro l2
    exact List.find?_cons_of_neg l2 (by simp [hpa])
  | cons b l1 ih =>
    intro l2
    cases hpb : p b
    · show List.find? p (b :: (l1 ++ a :: l2)) = List.find? p (b :: (l1 ++ l2))
      rw [List.find?_cons_of_neg _ (by simp [hpb]),
        List.find?_cons_of_neg _ (by simp [hpb]), ih]
    · show List.find? p (b :: (l1 ++ a :: l2)) = List.find? p (b :: (l1 ++ l2))
      rw [List.find?_cons_of_pos _ hpb, List.find?_cons_of_pos _ hpb]

theorem find?_append_all_neg {α : Type} (p : α → Bool) :
    ∀ l1 l2 : List α, (∀ x ∈ l1, p x = false) →
      List.find? p (l1 ++ l2) = List.find? p l2 := by
  intro l1
  induction l1 with
  | nil => intro l2 _; rfl
  | cons b l1 ih =>
    intro l2 h
    show List.find? p (b :: (l1 ++ l2)) = List.find? p l2
    rw [List.find?_cons_of_neg _ (by simp [h b (List.mem_cons_self b l1)]),
      ih l2 (fun x hx => h x (List.mem_cons_of_mem b hx))]

theorem contains_append_middle_ne (c k : Nat) (B : List Nat) (hk : k ≠ c) :
    ∀ A : List Nat, (A ++ c :: B).contains k = (A ++ B).contains k := by
  intro A
  induction A with
  | nil =>
    show (c :: B).contains k = B.contains k
    simp [List.contains_cons, hk]
  | cons a A ih =>
    show (a :: (A ++ c :: B)).contains k = (a :: (A ++ B)).contains k
    rw [List.contains_cons, List.contains_cons, ih]

theorem erase_append_middle (c : Nat) (A B : List Nat) (hA : c ∉ A) :
    (A ++ c :: B).erase c = A ++ B := by
  rw [List.erase_append_right _ hA, List.erase_cons_head]

theorem translateGo_cons_skip (table : List (Nat × Path)) (cs : List Nat)
    (r : RawRecord) (rs : List RawRecord)
    (h : (r.hasMovedTo && cs.contains r.cookie) = true) :
    translateGo table cs (r :: rs) = translateGo table (cs.erase r.cookie) rs := by
  simp only [translateGo]
  rw [if_pos h]

theorem translateGo_cons_drop (table : List (Nat × Path)) (cs : List Nat)
    (r : RawRecord) (rs : List RawRecord)
    (h : ¬((r.hasMovedTo && cs.contains r.cookie) = true))
    (hres : resolveRecord table r = none) :
    translateGo table cs (r :: rs) = translateGo table cs rs := by
  simp only [translateGo]
  rw [if_neg h]
  simp [hres]

theorem translateGo_cons_plain (table : List (Nat × Path)) (cs : List Nat)
    (r : RawRecord) (rs : List RawRecord) (p : Path)
    (h : ¬((r.hasMovedTo && cs.contains r.cookie) = true))
    (hres : resolveRecord table r = some p)
    (hmvf : r.hasMovedFrom = false) :
    translateGo table cs (r :: rs) =
      ⟨p, r.mask, none⟩ :: translateGo table cs rs := by
  simp only [translateGo]
  rw [if_neg h]
  simp [hres, hmvf]

theorem translateGo_cons_alone (table : List (Nat × Path)) (cs : List Nat)
    (r : RawRecord) (rs : List RawRecord) (p : Path)
    (h : ¬((r.hasMovedTo && cs.contains r.cookie) = true))
    (hres : resolveRecord table r = some p)
    (hmvf : r.hasMovedFrom = true)
    (hF : findMovedTo r.cookie rs = none) :
    translateGo table cs (r :: rs) =
      ⟨p, Event.moved_from.toMask, none⟩ :: translateGo table cs rs := by
  simp only [translateGo]
  rw [if_neg h]
  simp [hres, hmvf, hF]

theorem translateGo_cons_pair_drop (table : List (Nat × Path)) (cs : List Nat)
    (r r2 : RawRecord) (rs : List RawRecord) (p : Path)
    (h : ¬((r.hasMovedTo && cs.contains r.cookie) = true))
    (hres : resolveRecord table r = some p)
    (hmvf : r.hasMovedFrom = true)
    (hF : findMovedTo r.cookie rs = some r2)
    (hres2 : resolveRecord table r2 = none) :
    translateGo table cs (r :: rs) =
      ⟨p, Event.moved_from.toMask, none⟩ ::
        translateGo table (r.cookie :: cs) rs := by
  simp only [translateGo]
  rw [if_neg h]
  simp [hres, hmvf, hF, hres2]

theorem translateGo_cons_pair (table : List (Nat × Path)) (cs : List Nat)
    (r r2 : RawRecord) (rs : List RawRecord) (p q : Path)
    (h : ¬((r.hasMovedTo && cs.contains r.cookie) = true))
    (hres : resolveRecord table r = some p)
    (hmvf : r.hasMovedFrom = true)
    (hF : findMovedTo r.cookie rs = some r2)
    (hres2 : resolveRecord table r2 = some q) :
    translateGo table cs (r :: rs) =
      ⟨p, maskUnion Event.moved_from.toMask Event.moved_to.toMask, some q⟩ ::
        translateGo table (r.cookie :: cs) rs := by
  simp only [translateGo]
  rw [if_neg h]
  simp [hres, hmvf, hF, hres2]

theorem translateGo_consume (table : List (Nat × Path)) (mt : RawRecord)
    (hmt : mt.hasMovedTo = true) :
    ∀ (mid : List RawRecord) (A B : List Nat) (post : List RawRecord),
      (∀ r ∈ mid, r.cookie ≠ mt.cookie) → mt.cookie ∉ A →
      translateGo table (A ++ mt.cookie :: B) (mid ++ mt :: post) =
        translateGo table (A ++ B) (mid ++ post) := by
  intro mid
  induction mid with
  | nil =>
    intro A B post _ hA
    show translateGo table (A ++ mt.cookie :: B) (mt :: post) =
      translateGo table (A ++ B) post
    have hcont : (A ++ mt.cookie :: B).contains mt.cookie = true := by
      show (A ++ mt.cookie :: B).elem mt.cookie = true
      rw [List.elem_eq_mem]
      simp
    rw [translateGo_cons_skip table _ mt post (by rw [hmt, hcont]; rfl),
      erase_append_middle mt.cookie A B hA]
  | cons r mid ih =>
    intro A B post hmid hA
    have hrc : r.cookie ≠ mt.cookie := hmid r (List.mem_cons_self r mid)
    have hmid' : ∀ x ∈ mid, x.cookie ≠ mt.cookie :=
      fun x hx => hmid x (List.mem_cons_of_mem r hx)
    have hcont : (A ++ mt.cookie :: B).contains r.cookie =
        (A ++ B).contains r.cookie :=
      contains_append_middle_ne mt.cookie r.cookie B hrc A
    show translateGo table (A ++ mt.cookie :: B) (r :: (mid ++ mt :: post)) =
      translateGo table (A ++ B) (r :: (mid ++ post))
    by_cases hskip : (r.hasMovedTo && (A ++ B).contains r.cookie) = true
    · have hskip1 : (r.hasMovedTo && (A ++ mt.cookie :: B).contains r.cookie) = true := by
        rw [hcont]
        exact hskip
      by_cases hrA : r.cookie ∈ A
      · rw [translateGo_cons_skip table _ r _ hskip1,
          translateGo_cons_skip table _ r _ hskip,
          List.erase_append_left _ hrA, List.erase_append_left _ hrA]
        exact ih (A.erase r.cookie) B post hmid'
          (fun hm => hA (List.mem_of_mem_erase hm))
      · have hbeq : ¬((mt.cookie == r.cookie) = true) := by
          rw [beq_iff_eq]
          exact fun hx => hrc hx.symm
        rw [translateGo_cons_skip table _ r _ hskip1,
          translateGo_cons_skip table _ r _ hskip,
          List.erase_append_right _ hrA, List.erase_append_right _ hrA,
          List.erase_cons_tail hbeq]
        exact ih A (B.erase r.cookie) post hmid' hA
    · have hskip1 : ¬((r.hasMovedTo && (A ++ mt.cookie :: B).contains r.cookie) = true) := by
        rw [hcont]
        exact hskip
      cases hres : resolveRecord table r with
      | none =>
        rw [translateGo_cons_drop table _ r _ hskip1 hres,
          translateGo_cons_drop table _ r _ hskip hres]
        exact ih A B post hmid' hA
      | some pr =>
        by_cases hmvf : r.hasMovedFrom = true
        · have hpmt : (mt.hasMovedTo && (mt.cookie == r.cookie)) = false := by
            rw [hmt, Bool.true_and, beq_eq_false_iff_ne]
            exact fun hx => hrc hx.symm
          have hfind : findMovedTo r.cookie (mid ++ mt :: post) =
              findMovedTo r.cookie (mid ++ post) := by
            show List.find? (fun x => x.hasMovedTo && x.cookie == r.cookie)
                (mid ++ mt :: post) = _
            exact find?_skip_middle _ mt hpmt mid post
          cases hF : findMovedTo r.cookie (mid ++ post) with
          | none =>
            rw [translateGo_cons_alone table _ r _ pr hskip1 hres hmvf
                (hfind.trans hF),
              translateGo_cons_alone table _ r _ pr hskip hres hmvf hF]
            exact congrArg (List.cons _) (ih A B post hmid' hA)
          | some r2 =>
            have hA2 : mt.cookie ∉ r.cookie :: A := by
              intro hm
              rcases List.mem_cons.mp hm with he | hm2
              · exact hrc he.symm
              · exact hA hm2
            cases hres2 : resolveRecord table r2 with
            | none =>
              rw [translateGo_cons_pair_drop table _ r r2 _ pr hskip1 hres hmvf
                  (hfind.trans hF) hres2,
                translateGo_cons_pair_drop table _ r r2 _ pr hskip hres hmvf hF hres2]
              exact congrArg (List.cons _) (ih (r.cookie :: A) B post hmid' hA2)
            | some q2 =>
              rw [translateGo_cons_pair table _ r r2 _ pr q2 hskip1 hres hmvf
                  (hfind.trans hF) hres2,
                translateGo_cons_pair table _ r r2 _ pr q2 hskip hres hmvf hF hres2]
              exact congrArg (List.cons _) (ih (r.cookie :: A) B post hmid' hA2)
        · have hmvf' : r.hasMovedFrom = false := by
            cases hb : r.hasMovedFrom
            · rfl
            · exact absurd hb hmvf
          rw [translateGo_cons_plain table _ r _ pr hskip1 hres hmvf',
            translateGo_cons_plain table _ r _ pr hskip hres hmvf']
          exact congrArg (List.cons _) (ih A B post hmid' hA)

theorem translateGo_pair_head (table : List (Nat × Path)) (cs : List Nat)
    (mf mt : RawRecord) (mid post : List RawRecord) (p q : Path)
    (hmf : mf.hasMovedFrom = true) (hmf2 : mf.hasMovedTo = false)
    (hmt : mt.hasMovedTo = true) (hc : mt.cookie = mf.cookie)
    (hp : resolveRecord table mf = some p)
    (hq : resolveRecord table mt = some q)
    (hmid : ∀ r ∈ mid, r.cookie ≠ mf.cookie) :
    translateGo table cs (mf :: (mid ++ mt :: post)) =
      ⟨p, maskUnion Event.moved_from.toMask Event.moved_to.toMask, some q⟩ ::
        translateGo table cs (mid ++ post) := by
  have hns : ¬((mf.hasMovedTo && cs.contains mf.cookie) = true) := by
    rw [hmf2, Bool.false_and]
    decide
  have hall : ∀ x ∈ mid, (x.hasMovedTo && (x.cookie == mf.cookie)) = false :=
    fun x hx => by rw [beq_eq_false_iff_ne.mpr (hmid x hx), Bool.and_false]
  have hfind : findMovedTo mf.cookie (mid ++ mt :: post) = some mt := by
    show List.find? (fun x => x.hasMovedTo && x.cookie == mf.cookie)
        (mid ++ mt :: post) = some mt
    rw [find?_append_all_neg _ mid (mt :: post) hall]
    exact List.find?_cons_of_pos _ (by rw [hmt, hc]; simp)
  rw [translateGo_cons_pair table cs mf mt _ p q hns hp hmf hfind hq, ← hc]
  exact congrArg (List.cons _)
    (translateGo_consume table mt hmt mid [] cs post
      (fun r hr => by rw [hc]; exact hmid r hr) (List.not_mem_nil _))

theorem translateGo_alone_head (table : List (Nat × Path)) (cs : List Nat)
    (mf : RawRecord) (rest : List RawRecord) (p : Path)
    (hmf : mf.hasMovedFrom = true) (hmf2 : mf.hasMovedTo = false)
    (hp : resolveRecord table mf = some p)
    (hnone : findMovedTo mf.cookie rest = none) :
    translateGo table cs (mf :: rest) =
      ⟨p, Event.moved_from.toMask, none⟩ :: translateGo table cs rest := by
  have hns : ¬((mf.hasMovedTo && cs.contains mf.cookie) = true) := by
    rw [hmf2, Bool.false_and]
    decide
  rw [translateGo_cons_alone table cs mf rest p hns hp hmf hnone]

theorem translateGo_cons_cases (table : List (Nat × Path)) (cs : List Nat)
    (r : RawRecord) (rs : List RawRecord) :
    ∃ (out : List Notification) (cs' : List Nat),
      translateGo table cs (r :: rs) = out ++ translateGo table cs' rs := by
  by_cases hskip : (r.hasMovedTo && cs.contains r.cookie) = true
  · exact ⟨[], cs.erase r.cookie, translateGo_cons_skip table cs r rs hskip⟩
  · cases hres : resolveRecord table r with
    | none => exact ⟨[], cs, translateGo_cons_drop table cs r rs hskip hres⟩
    | some p =>
      by_cases hmvf : r.hasMovedFrom = true
      · cases hF : findMovedTo r.cookie rs with
        | none =>
          exact ⟨[⟨p, Event.moved_from.toMask, none⟩], cs,
            translateGo_cons_alone table cs r rs p hskip hres hmvf hF⟩
        | some r2 =>
          cases hres2 : resolveRecord table r2 with
          | none =>
            exact ⟨[⟨p, Event.moved_from.toMask, none⟩], r.cookie :: cs,
              translateGo_cons_pair_drop table cs r r2 rs p hskip hres hmvf hF hres2⟩
          | some q =>
            exact ⟨[⟨p, maskUnion Event.moved_from.toMask Event.moved_to.toMask,
                some q⟩], r.cookie :: cs,
              translateGo_cons_pair table cs r r2 rs p q hskip hres hmvf hF hres2⟩
      · have hmvf' : r.hasMovedFrom = false := by
          cases hb : r.hasMovedFrom
          · rfl
          · exact absurd hb hmvf
        exact ⟨[⟨p, r.mask, none⟩], cs,
          translateGo_cons_plain table cs r rs p hskip hres hmvf'⟩

theorem translateGo_append_decomp (table : List (Nat × Path)) :
    ∀ (pre : List RawRecord) (cs : List Nat) (X : List RawRecord),
      ∃ (out : List Notification) (cs' : List Nat),
        translateGo table cs (pre ++ X) = out ++ translateGo table cs' X := by
  intro pre
  induction pre with
  | nil =>
    intro cs X
    exact ⟨[], cs, rfl⟩
  | cons r pre ih =>
    intro cs X
    obtain ⟨o1, cs1, h1⟩ := translateGo_cons_cases table cs r (pre ++ X)
    obtain ⟨o2, cs2, h2⟩ := ih cs1 X
    exact ⟨o1 ++ o2, cs2, by
      show translateGo table cs (r :: (pre ++ X)) = (o1 ++ o2) ++ translateGo table cs2 X
      rw [h1, h2, List.append_assoc]⟩

/-- C3: wherever in one read batch a `moved_from` record is followed - not
necessarily adjacently - by the first `moved_to` record sharing its cookie,
with any records of other cookies in between, the translator emits exactly
one Notification carrying both the old and the new path: for every consumed
state (hence after any prefix of the batch) the pair collapses into one
delivery and the continuation translates the batch with both pair records
removed; a `moved_from` whose cookie has no `moved_to` in the remainder of
the batch is emitted alone.  The last two conjuncts restate both facts for a
whole `translateBatch` run with an arbitrary batch prefix in front of the
`moved_from`. -/
theorem c3_rename_reassembly (table : List (Nat × Path)) (mf mt : RawRecord)
    (mid post rest : List RawRecord) (p q : Path)
    (hmf : mf.hasMovedFrom = true) (hmf2 : mf.hasMovedTo = false)
    (hmt : mt.hasMovedTo = true) (hc : mt.cookie = mf.cookie)
    (hp : resolveRecord table mf = some p)
    (hq : resolveRecord table mt = some q)
    (hmid : ∀ r ∈ mid, r.cookie ≠ mf.cookie)
    (hnone : findMovedTo mf.cookie rest = none) :
    (∀ cs : List Nat,
      translateGo table cs (mf :: (mid ++ mt :: post)) =
        ⟨p, maskUnion Event.moved_from.toMask Event.moved_to.toMask, some q⟩ ::
          translateGo table cs (mid ++ post)) ∧
    (∀ cs : List Nat,
      translateGo table cs (mf :: rest) =
        ⟨p, Event.moved_from.toMask, none⟩ :: translateGo table cs rest) ∧
    (∀ pre : List RawRecord, ∃ (out : List Notification) (cs : List Nat),
      translateBatch table (pre ++ mf :: (mid ++ mt :: post)) =
        out ++ ⟨p, maskUnion Event.moved_from.toMask Event.moved_to.toMask,
          some q⟩ :: translateGo table cs (mid ++ post)) ∧
    (∀ pre : List RawRecord, ∃ (out : List Notification) (cs : List Nat),
      translateBatch table (pre ++ mf :: rest) =
        out ++ ⟨p, Event.moved_from.toMask, none⟩ ::
          translateGo table cs rest) := by
  have h1 : ∀ cs : List Nat,
      translateGo table cs (mf :: (mid ++ mt :: post)) =
        ⟨p, maskUnion Event.moved_from.toMask Event.moved_to.toMask, some q⟩ ::
          translateGo table cs (mid ++ post) :=
    fun cs => translateGo_pair_head table cs mf mt mid post p q
      hmf hmf2 hmt hc hp hq hmid
  have h2 : ∀ cs : List Nat,
      translateGo table cs (mf :: rest) =
        ⟨p, Event.moved_from.toMask, none⟩ :: translateGo table cs rest :=
    fun cs => translateGo_alone_head table cs mf rest p hmf hmf2 hp hnone
  refine ⟨h1, h2, ?_, ?_⟩
  · intro pre
    obtain ⟨out, cs', hd⟩ :=
      translateGo_append_decomp table pre [] (mf :: (mid ++ mt :: post))
    exact ⟨out, cs', by rw [translateBatch, hd, h1 cs']⟩
  · intro pre
    obtain ⟨out, cs', hd⟩ :=
      translateGo_append_decomp table pre [] (mf :: rest)
    exact ⟨out, cs', by rw [translateBatch, hd, h2 cs']⟩

/-- Witness for C3 at a concrete input: a rename of `a.txt` to `b.txt`
inside the watched directory `dir` (descriptor 1, cookie 7) with an
unrelated `modify` record between the two halves of the pair, and the same
`moved_from` record followed only by the unrelated record. -/
theorem c3_rename_reassembly_witness :
    translateGo [(1, ["dir"])] []
        [⟨1, 0x40, 7, some "a.txt"⟩, ⟨1, 0x2, 0, some "x.txt"⟩,
          ⟨1, 0x80, 7, some "b.txt"⟩] =
      ⟨["dir", "a.txt"], maskUnion Event.moved_from.toMask Event.moved_to.toMask,
        some ["dir", "b.txt"]⟩ ::
        translateGo [(1, ["dir"])] [] [⟨1, 0x2, 0, some "x.txt"⟩] ∧
    translateGo [(1, ["dir"])] []
        [⟨1, 0x40, 7, some "a.txt"⟩, ⟨1, 0x2, 0, some "x.txt"⟩] =
      ⟨["dir", "a.txt"], Event.moved_from.toMask, none⟩ ::
        translateGo [(1, ["dir"])] [] [⟨1, 0x2, 0, some "x.txt"⟩] :=
  ⟨(c3_rename_reassembly [(1, ["dir"])] ⟨1, 0x40, 7, some "a.txt"⟩
      ⟨1, 0x80, 7, some "b.txt"⟩ [⟨1, 0x2, 0, some "x.txt"⟩] [] [⟨1, 0x2, 0, some "x.txt"⟩]
      ["dir", "a.txt"] ["dir", "b.txt"]
      (by decide) (by decide) (by decide) rfl rfl rfl (by decide) rfl).1 [],
    (c3_rename_reassembly [(1, ["dir"])] ⟨1, 0x40, 7, some "a.txt"⟩
      ⟨1, 0x80, 7, some "b.txt"⟩ [⟨1, 0x2, 0, some "x.txt"⟩] [] [⟨1, 0x2, 0, some "x.txt"⟩]
      ["dir", "a.txt"] ["dir", "b.txt"]
      (by decide) (by decide) (by decide) rfl rfl rfl (by decide) rfl).2.1 []⟩

theorem isPrefixOf_self (l : Path) : l.isPrefixOf l = true := by
  rw [ List.isPrefixOf_iff_prefix]

theorem isPrefixOf_trans (a b c : Path) (h1 : a.isPrefixOf b = true)
    (h2 : b.isPrefixOf c = true) : a.isPrefixOf c = true := by
  rw [ List.isPrefixOf_iff_prefix] at h1 h2 ⊢
  exact h1.trans h2

theorem isPrefixOf_comparable (a b c : Path) (h1 : a.isPrefixOf c = true)
    (h2 : b.isPrefixOf c = true) :
    a.isPrefixOf b = true ∨ b.isPrefixOf a = true := by
  rw [ List.isPrefixOf_iff_prefix] at h1 h2
  rw [ List.isPrefixOf_iff_prefix, List.isPrefixOf_iff_prefix]
  exact List.prefix_or_prefix_of_prefix h1 h2

theorem underRoots_of_under (roots : List Path) (d x : Path)
    (hd : underRoots roots d = true) (hx : d.isPrefixOf x = true) :
    underRoots roots x = true := by
  rcases List.any_eq_true.mp hd with ⟨r, hr, hrd⟩
  exact List.any_eq_true.mpr ⟨r, hr, isPrefixOf_trans r d x hrd hx⟩

theorem underRoots_false_of_under (roots : List Path) (d x : Path)
    (hroots : ∀ r ∈ roots, d.isPrefixOf r = true → r = d)
    (hd : underRoots roots d = false) (hx : d.isPrefixOf x = true) :
    underRoots roots x = false := by
  cases hU : underRoots roots x with
  | false => rfl
  | true =>
    exfalso
    rcases List.any_eq_true.mp hU with ⟨r, hr, hrx⟩
    rcases isPrefixOf_comparable r d x hrx hx with hrd | hdr
    · have h2 : underRoots roots d = true := List.any_eq_true.mpr ⟨r, hr, hrd⟩
      cases h2.symm.trans hd
    · have h3 : r = d := hroots r hr hdr
      have h2 : underRoots roots d = true :=
        List.any_eq_true.mpr ⟨r, hr, by rw [h3]; exact isPrefixOf_self d⟩
      cases h2.symm.trans hd

/-- C7: the watch-table invariant - the watched directories are exactly the
directories existing on the filesystem that lie under a recursive root - is
preserved by the dispatch cycle of a `create` Notification (synchronous
`addWatch` plus re-walk of already-existing children) and by the dispatch
cycle of `delete`/`delete_self`/`moved_from` (entry removal), the lockstep
rendering of "modulo the bounded propagation delay of one dispatch
cycle". -/
theorem c7_watch_tree_invariant (roots fs table : List Path) (d : Path)
    (newDirs : List Path) (hInv : watchInvariant roots fs table)
    (hnew : ∀ x ∈ newDirs, d.isPrefixOf x = true)
    (hroots : ∀ r ∈ roots, d.isPrefixOf r = true → r = d) :
    watchInvariant roots (fs ++ newDirs)
      (applyCreate roots (fs ++ newDirs) table d) ∧
    watchInvariant roots (fs.filter (fun x => ! d.isPrefixOf x))
      (applyRemove table d) := by
  constructor
  · intro p
    by_cases hU : underRoots roots d = true
    · simp only [applyCreate, if_pos hU, List.mem_append, List.mem_filter,
        hInv p]
      constructor
      · rintro (⟨hf, hu⟩ | ⟨hm, hdp⟩)
        · exact ⟨Or.inl hf, hu⟩
        · exact ⟨hm, underRoots_of_under roots d p hU hdp⟩
      · rintro ⟨hf | hn, hu⟩
        · exact Or.inl ⟨hf, hu⟩
        · exact Or.inr ⟨Or.inr hn, hnew p hn⟩
    · have hUf : underRoots roots d = false := by
        cases h2 : underRoots roots d
        · rfl
        · exact absurd h2 hU
      simp only [applyCreate, if_neg hU, List.mem_append, hInv p]
      constructor
      · rintro ⟨hf, hu⟩
        exact ⟨Or.inl hf, hu⟩
      · rintro ⟨hf | hn, hu⟩
        · exact ⟨hf, hu⟩
        · exact absurd hu (by
            rw [underRoots_false_of_under roots d p hroots hUf (hnew p hn)]
            simp)
  · intro p
    simp only [applyRemove, List.mem_filter, hInv p]
    tauto

/-- Witness for C7 at a concrete input: one recursive root `r` watched, a
new directory `r/s` created under it, then the subtree `r/s` removed;
membership in the updated table matches the invariant at sample paths. -/
theorem c7_watch_tree_invariant_witness :
    ((["r", "s"] : Path) ∈
        applyCreate [["r"]] ([["r"]] ++ [["r", "s"]]) [["r"]] ["r", "s"] ↔
      ((["r", "s"] : Path) ∈ [["r"]] ++ [["r", "s"]] ∧
        underRoots [["r"]] ["r", "s"] = true)) ∧
    ((["r"] : Path) ∈ applyRemove [["r"]] ["r", "s"] ↔
      ((["r"] : Path) ∈
          ([["r"]] : List Path).filter
            (fun x => ! (["r", "s"] : Path).isPrefixOf x) ∧
        underRoots [["r"]] ["r"] = true)) := by
  have h := c7_watch_tree_invariant [["r"]] [["r"]] [["r"]] ["r", "s"]
    [["r", "s"]]
    (by
      intro p
      constructor
      · intro hp
        have hp' : p = ["r"] := List.mem_singleton.mp hp
        subst hp'
        exact ⟨List.mem_singleton.mpr rfl, by decide⟩
      · intro hp
        exact hp.1)
    (by decide) (by decide)
  exact ⟨h.1 ["r", "s"], h.2 ["r"]⟩

end NotifyCpp
